import Mathlib

/-!
# Token bucket rate limiter (`token-bucket/token-bucket-rate-limiting.go`)

A shallow embedding of `TokenBucket`, `NewTokenBucket`, `refill` and `Allow`.

The critical section between `tb.mu.Lock()` and `tb.mu.Unlock()` is one
function application on the bucket state, so a trace of the program is a
list of such steps.

Go's `int` is 64-bit two's complement: `refillTick64`, `Allow64`, `run64`,
`refill` and `startAndRun` wrap `+=` and `--` modulo `2^64` and are the
program as it runs.  `refillTick`, `Allow` and `run` take integers as
unbounded; they serve the results stated for unbounded integers and agree
with the 64-bit program wherever `capacity + refillRate` fits in an `int`
(`run64_eq_run`).
-/

namespace TokenBucketModel

/-- The fields of the Go struct `TokenBucket`, the mutex left out.
`refillInterval` is a `time.Duration`, a number of nanoseconds. -/
structure TokenBucket where
  capacity : Int
  tokens : Int
  refillRate : Int
  refillInterval : Int
  deriving DecidableEq, Repr

/-- The bucket that `NewTokenBucket` builds and returns (go:22-27, 30): it
starts full and no argument is validated. The statement `go tb.refill()`
(go:29) starts the goroutine `refill`; its effect on the process is
`startAndRun`. -/
def NewTokenBucket (capacity refillRate refillInterval : Int) : TokenBucket :=
  { capacity := capacity
    tokens := capacity
    refillRate := refillRate
    refillInterval := refillInterval }

/-- The body of the `for range ticker.C` loop of `refill`, between `Lock`
and `Unlock`, with integers taken as unbounded. The program itself wraps:
see `refillTick64`. -/
def refillTick (tb : TokenBucket) : TokenBucket :=
  if tb.tokens < tb.capacity then
    let tb1 := { tb with tokens := tb.tokens + tb.refillRate }
    if tb1.tokens > tb1.capacity then
      { tb1 with tokens := tb1.capacity }
    else tb1
  else tb

/-- `Allow`: the returned boolean and the bucket after the call, over
unbounded integers. -/
def Allow (tb : TokenBucket) : Bool × TokenBucket :=
  if tb.tokens > 0 then
    (true, { tb with tokens := tb.tokens - 1 })
  else
    (false, tb)

/-- One event on the bucket: a call of `Allow` or one tick of the refiller. -/
inductive Step where
  | allow
  | tick
  deriving DecidableEq, Repr

/-- Runs a sequence of events; the booleans returned by the `Allow` calls
are collected in call order. -/
def run : TokenBucket → List Step → TokenBucket × List Bool
  | tb, [] => (tb, [])
  | tb, Step.allow :: rest =>
    let r := Allow tb
    let out := run r.2 rest
    (out.1, r.1 :: out.2)
  | tb, Step.tick :: rest => run (refillTick tb) rest

/-- The smallest value of Go's `int` on a 64-bit platform. -/
def minInt64 : Int := -9223372036854775808

/-- The largest value of Go's `int` on a 64-bit platform. -/
def maxInt64 : Int := 9223372036854775807

/-- Reduction of a mathematical integer to its 64-bit two's-complement
value, the result of Go's wrapping `int` arithmetic. -/
def wrap64 (x : Int) : Int :=
  (x + 9223372036854775808) % 18446744073709551616 - 9223372036854775808

/-- A value that an `int` variable can hold. -/
def InInt64 (x : Int) : Prop := minInt64 ≤ x ∧ x ≤ maxInt64

instance (x : Int) : Decidable (InInt64 x) := by
  unfold InInt64; infer_instance

/-- The loop body of `refill` with `tb.tokens += tb.refillRate` wrapping
modulo `2^64`. -/
def refillTick64 (tb : TokenBucket) : TokenBucket :=
  if tb.tokens < tb.capacity then
    let tb1 := { tb with tokens := wrap64 (tb.tokens + tb.refillRate) }
    if tb1.tokens > tb1.capacity then
      { tb1 with tokens := tb1.capacity }
    else tb1
  else tb

/-- `Allow` with `tb.tokens--` wrapping modulo `2^64`. -/
def Allow64 (tb : TokenBucket) : Bool × TokenBucket :=
  if tb.tokens > 0 then
    (true, { tb with tokens := wrap64 (tb.tokens - 1) })
  else
    (false, tb)

/-- Runs a sequence of events under 64-bit arithmetic. -/
def run64 : TokenBucket → List Step → TokenBucket × List Bool
  | tb, [] => (tb, [])
  | tb, Step.allow :: rest =>
    let r := Allow64 tb
    let out := run64 r.2 rest
    (out.1, r.1 :: out.2)
  | tb, Step.tick :: rest => run64 (refillTick64 tb) rest

/-- `time.NewTicker d` of Go's standard library, called at go:35: for
`d <= 0` it panics, which is `none` here; otherwise it gives a ticker of
period `d`. -/
def NewTicker (d : Int) : Option Int :=
  if d ≤ 0 then none else some d

/-- The `for range ticker.C` loop of `refill` after `k` ticks with no
`Allow` call in between. -/
def refillLoop : Nat → TokenBucket → TokenBucket
  | 0, tb => tb
  | k + 1, tb => refillLoop k (refillTick64 tb)

/-- `refill` (go:34-46) observed after its first `k` ticks, with no `Allow`
call in between: `none` when `time.NewTicker` panics, so that no tick ever
happens. -/
def refill (k : Nat) (tb : TokenBucket) : Option TokenBucket :=
  match NewTicker tb.refillInterval with
  | none => none
  | some _ => some (refillLoop k tb)

/-- The process from the call of `NewTokenBucket` on: the bucket is built,
the goroutine `refill` is started (go:29) and the events `steps` follow.
`none` is the panic of `time.NewTicker` inside that goroutine, which ends
the process; otherwise the final bucket and the results of the `Allow`
calls. -/
def startAndRun (capacity refillRate refillInterval : Int) (steps : List Step) :
    Option (TokenBucket × List Bool) :=
  let tb := NewTokenBucket capacity refillRate refillInterval
  match NewTicker tb.refillInterval with
  | none => none
  | some _ => some (run64 tb steps)

/-! ## Basic facts -/

theorem wrap64_of_inInt64 (x : Int) (h : InInt64 x) : wrap64 x = x := by
  unfold InInt64 minInt64 maxInt64 at h
  unfold wrap64
  omega

theorem Allow64_eq_Allow (tb : TokenBucket) (h : InInt64 tb.tokens) :
    Allow64 tb = Allow tb := by
  unfold Allow64 Allow
  split
  · rename_i hpos
    have : InInt64 (tb.tokens - 1) := by
      unfold InInt64 minInt64 maxInt64 at *
      omega
    rw [wrap64_of_inInt64 _ this]
  · rfl

theorem refillTick64_eq_refillTick (tb : TokenBucket)
    (h : InInt64 (tb.tokens + tb.refillRate)) :
    refillTick64 tb = refillTick tb := by
  unfold refillTick64 refillTick
  rw [wrap64_of_inInt64 _ h]

/-! ## Allow -/

/-- C1: `Allow` as one atomic step. With `tokens > 0` it returns true and
changes only `tokens`, which drops by exactly 1; with `tokens <= 0` it
returns false and the bucket is unchanged. -/
theorem Allow_contract (tb : TokenBucket) :
    (tb.tokens > 0 →
      (Allow tb).1 = true ∧
      (Allow tb).2.tokens = tb.tokens - 1 ∧
      (Allow tb).2.capacity = tb.capacity ∧
      (Allow tb).2.refillRate = tb.refillRate ∧
      (Allow tb).2.refillInterval = tb.refillInterval) ∧
    (tb.tokens ≤ 0 → (Allow tb).1 = false ∧ (Allow tb).2 = tb) := by
  constructor
  · intro h
    simp [Allow, h]
  · intro h
    have h2 : ¬ tb.tokens > 0 := by omega
    simp [Allow, h2]

theorem Allow_contract_witness :
    (Allow (NewTokenBucket 5 1 1000000000)).1 = true ∧
    (Allow (NewTokenBucket 5 1 1000000000)).2.tokens = 4 ∧
    (Allow ⟨5, 0, 1, 1000000000⟩).1 = false :=
  ⟨((Allow_contract (NewTokenBucket 5 1 1000000000)).1 (by decide)).1,
   ((Allow_contract (NewTokenBucket 5 1 1000000000)).1 (by decide)).2.1,
   ((Allow_contract ⟨5, 0, 1, 1000000000⟩).2 (by decide)).1⟩

/-! ## Refill -/

theorem refillTick_capacity (tb : TokenBucket) :
    (refillTick tb).capacity = tb.capacity := by
  unfold refillTick
  split
  · dsimp only
    split <;> rfl
  · rfl

theorem refillTick_refillRate (tb : TokenBucket) :
    (refillTick tb).refillRate = tb.refillRate := by
  unfold refillTick
  split
  · dsimp only
    split <;> rfl
  · rfl

theorem refillTick_refillInterval (tb : TokenBucket) :
    (refillTick tb).refillInterval = tb.refillInterval := by
  unfold refillTick
  split
  · dsimp only
    split <;> rfl
  · rfl

theorem refillTick_tokens_of_lt (tb : TokenBucket) (h : tb.tokens < tb.capacity) :
    (refillTick tb).tokens = min (tb.tokens + tb.refillRate) tb.capacity := by
  unfold refillTick
  rw [if_pos h]
  dsimp only
  split
  · rename_i hgt
    dsimp only
    rw [min_eq_right (le_of_lt hgt)]
  · rename_i hle
    rw [min_eq_left (not_lt.mp hle)]

theorem refillTick_of_not_lt (tb : TokenBucket) (h : ¬ tb.tokens < tb.capacity) :
    refillTick tb = tb := by
  unfold refillTick
  rw [if_neg h]

/-! ## Traces -/

theorem Allow_capacity (tb : TokenBucket) : (Allow tb).2.capacity = tb.capacity := by
  unfold Allow
  split <;> rfl

theorem Allow_refillRate (tb : TokenBucket) :
    (Allow tb).2.refillRate = tb.refillRate := by
  unfold Allow
  split <;> rfl

theorem Allow_tokens_bounds (tb : TokenBucket) (h0 : 0 ≤ tb.tokens)
    (h1 : tb.tokens ≤ tb.capacity) :
    0 ≤ (Allow tb).2.tokens ∧ (Allow tb).2.tokens ≤ tb.capacity := by
  unfold Allow
  split
  · dsimp only
    omega
  · exact ⟨h0, h1⟩

theorem refillTick_tokens_bounds (tb : TokenBucket) (hr : 0 ≤ tb.refillRate)
    (h0 : 0 ≤ tb.tokens) (h1 : tb.tokens ≤ tb.capacity) :
    0 ≤ (refillTick tb).tokens ∧ (refillTick tb).tokens ≤ tb.capacity := by
  by_cases hlt : tb.tokens < tb.capacity
  · rw [refillTick_tokens_of_lt tb hlt]
    refine ⟨le_min (by omega) (by omega), min_le_right _ _⟩
  · rw [refillTick_of_not_lt tb hlt]
    exact ⟨h0, h1⟩

/-- A run keeps `capacity` and `refillRate` and keeps `tokens` inside
`[0, capacity]`. -/
theorem run_invariant (steps : List Step) (tb : TokenBucket)
    (hr : 0 ≤ tb.refillRate) (h0 : 0 ≤ tb.tokens) (h1 : tb.tokens ≤ tb.capacity) :
    (run tb steps).1.capacity = tb.capacity ∧
    (run tb steps).1.refillRate = tb.refillRate ∧
    0 ≤ (run tb steps).1.tokens ∧
    (run tb steps).1.tokens ≤ tb.capacity := by
  induction steps generalizing tb with
  | nil => exact ⟨rfl, rfl, h0, h1⟩
  | cons st rest ih =>
    cases st with
    | allow =>
      have hb := Allow_tokens_bounds tb h0 h1
      have hi := ih (Allow tb).2 (by rw [Allow_refillRate]; exact hr) hb.1
        (by rw [Allow_capacity]; exact hb.2)
      rw [Allow_capacity, Allow_refillRate] at hi
      simpa only [run] using hi
    | tick =>
      have hb := refillTick_tokens_bounds tb hr h0 h1
      have hi := ih (refillTick tb) (by rw [refillTick_refillRate]; exact hr) hb.1
        (by rw [refillTick_capacity]; exact hb.2)
      rw [refillTick_capacity, refillTick_refillRate] at hi
      simpa only [run] using hi

/-- C2: with `capacity > 0` and `refillRate > 0` over unbounded integers,
the bucket built by `NewTokenBucket` has `tokens` in `[0, capacity]`; every
`Allow` call and every refill tick keeps it there; so it is there after
every finite sequence of `Allow` calls and refill ticks. -/
theorem capacity_bound (capacity refillRate refillInterval : Int)
    (hc : 0 < capacity) (hr : 0 < refillRate) :
    (0 ≤ (NewTokenBucket capacity refillRate refillInterval).tokens ∧
      (NewTokenBucket capacity refillRate refillInterval).tokens ≤ capacity) ∧
    (∀ tb : TokenBucket, tb.capacity = capacity → tb.refillRate = refillRate →
      0 ≤ tb.tokens → tb.tokens ≤ capacity →
        (0 ≤ (Allow tb).2.tokens ∧ (Allow tb).2.tokens ≤ capacity ∧
          (Allow tb).2.capacity = capacity ∧ (Allow tb).2.refillRate = refillRate) ∧
        (0 ≤ (refillTick tb).tokens ∧ (refillTick tb).tokens ≤ capacity ∧
          (refillTick tb).capacity = capacity ∧
          (refillTick tb).refillRate = refillRate)) ∧
    (∀ steps : List Step,
      0 ≤ (run (NewTokenBucket capacity refillRate refillInterval) steps).1.tokens ∧
      (run (NewTokenBucket capacity refillRate refillInterval) steps).1.tokens
        ≤ capacity ∧
      (run (NewTokenBucket capacity refillRate refillInterval) steps).1.capacity
        = capacity) := by
  refine ⟨⟨le_of_lt hc, le_refl _⟩, ?_, ?_⟩
  · intro tb hcap hrate h0 h1
    subst hcap
    subst hrate
    have ha := Allow_tokens_bounds tb h0 h1
    have ht := refillTick_tokens_bounds tb (le_of_lt hr) h0 h1
    exact ⟨⟨ha.1, ha.2, Allow_capacity tb, Allow_refillRate tb⟩,
      ⟨ht.1, ht.2, refillTick_capacity tb, refillTick_refillRate tb⟩⟩
  · intro steps
    have h := run_invariant steps (NewTokenBucket capacity refillRate refillInterval)
      (le_of_lt hr) (le_of_lt hc) (le_refl _)
    exact ⟨h.2.2.1, h.2.2.2, h.1⟩

theorem capacity_bound_witness :
    0 ≤ (run (NewTokenBucket 5 1 1000000000)
      [Step.allow, Step.tick, Step.tick, Step.allow]).1.tokens ∧
    (run (NewTokenBucket 5 1 1000000000)
      [Step.allow, Step.tick, Step.tick, Step.allow]).1.tokens ≤ 5 ∧
    (run (NewTokenBucket 5 1 1000000000)
      [Step.allow, Step.tick, Step.tick, Step.allow]).1.capacity = 5 :=
  (capacity_bound 5 1 1000000000 (by decide) (by decide)).2.2
    [Step.allow, Step.tick, Step.tick, Step.allow]

/-- Along a run, admissions plus the tokens left never exceed the tokens at
the start plus `refillRate` per tick. -/
theorem run_allowed_add_tokens (steps : List Step) (tb : TokenBucket)
    (hr : 0 ≤ tb.refillRate) (h0 : 0 ≤ tb.tokens) :
    0 ≤ (run tb steps).1.tokens ∧
    ((run tb steps).2.count true : Int) + (run tb steps).1.tokens
      ≤ tb.tokens + tb.refillRate * (steps.count Step.tick : Int) := by
  induction steps generalizing tb with
  | nil => simp [run, h0]
  | cons st rest ih =>
    cases st with
    | allow =>
      by_cases hpos : tb.tokens > 0
      · have hA : Allow tb = (true, { tb with tokens := tb.tokens - 1 }) := by
          unfold Allow; rw [if_pos hpos]
        have hi := ih { tb with tokens := tb.tokens - 1 } hr
          (by show 0 ≤ tb.tokens - 1; omega)
        simp only [run, hA, List.count_cons_self, Nat.cast_add, Nat.cast_one]
        have hcnt : List.count Step.tick (Step.allow :: rest)
            = List.count Step.tick rest := by
          simp [List.count_cons]
        rw [hcnt]
        dsimp only at hi
        omega
      · have hA : Allow tb = (false, tb) := by
          unfold Allow; rw [if_neg hpos]
        have hi := ih tb hr h0
        have hcnt : List.count Step.tick (Step.allow :: rest)
            = List.count Step.tick rest := by
          simp [List.count_cons]
        simp only [run, hA, hcnt]
        have hc2 : List.count true (false :: (run tb rest).2)
            = List.count true (run tb rest).2 := by
          simp [List.count_cons]
        rw [hc2]
        exact hi
    | tick =>
      have hb : 0 ≤ (refillTick tb).tokens ∧
          (refillTick tb).tokens ≤ tb.tokens + tb.refillRate := by
        by_cases hlt : tb.tokens < tb.capacity
        · rw [refillTick_tokens_of_lt tb hlt]
          exact ⟨le_min (by omega) (by omega), min_le_left _ _⟩
        · rw [refillTick_of_not_lt tb hlt]
          omega
      have hi := ih (refillTick tb) (by rw [refillTick_refillRate]; exact hr) hb.1
      rw [refillTick_refillRate] at hi
      simp only [run, List.count_cons_self, Nat.cast_add, Nat.cast_one, mul_add,
        mul_one]
      omega

/-- C9: with `capacity >= 0` and `refillRate >= 0` over unbounded integers,
in every finite sequence of `Allow` calls and refill ticks run from the
bucket built by `NewTokenBucket`, the number of `Allow` calls returning true
is at most `capacity + refillRate * (number of ticks)`. -/
theorem rate_bound (capacity refillRate refillInterval : Int)
    (hc : 0 ≤ capacity) (hr : 0 ≤ refillRate) (steps : List Step) :
    ((run (NewTokenBucket capacity refillRate refillInterval) steps).2.count true : Int)
      ≤ capacity + refillRate * (steps.count Step.tick : Int) := by
  have h := run_allowed_add_tokens steps
    (NewTokenBucket capacity refillRate refillInterval) hr hc
  have e1 : (NewTokenBucket capacity refillRate refillInterval).tokens = capacity := rfl
  have e2 : (NewTokenBucket capacity refillRate refillInterval).refillRate
      = refillRate := rfl
  rw [e1, e2] at h
  omega

theorem rate_bound_witness :
    ((run (NewTokenBucket 2 1 1000000000)
      [Step.allow, Step.allow, Step.allow, Step.tick, Step.allow, Step.allow]).2.count
        true : Int)
      ≤ 2 + 1 * (([Step.allow, Step.allow, Step.allow, Step.tick, Step.allow,
          Step.allow].count Step.tick : Nat) : Int) :=
  rate_bound 2 1 1000000000 (by decide) (by decide)
    [Step.allow, Step.allow, Step.allow, Step.tick, Step.allow, Step.allow]

/-! ## Consecutive calls of `Allow` -/

/-- The `j`-th result (from 0) of `m` consecutive `Allow` calls is true
exactly when `j + 1` does not exceed the tokens at the start. -/
theorem run_allow_results (m : Nat) (tb : TokenBucket) (j : Nat) (hj : j < m) :
    (run tb (List.replicate m Step.allow)).2[j]?
      = some (decide ((j : Int) + 1 ≤ tb.tokens)) := by
  induction m generalizing tb j with
  | zero => omega
  | succ m ih =>
    rw [List.replicate_succ]
    simp only [run]
    cases j with
    | zero =>
      simp only [List.getElem?_cons_zero, Nat.cast_zero, zero_add]
      by_cases hpos : tb.tokens > 0
      · have h1 : (1 : Int) ≤ tb.tokens := by omega
        simp [Allow, hpos, h1]
      · have h1 : ¬ (1 : Int) ≤ tb.tokens := by omega
        simp [Allow, hpos, h1]
    | succ j =>
      simp only [List.getElem?_cons_succ]
      rw [ih (Allow tb).2 j (by omega)]
      by_cases hpos : tb.tokens > 0
      · have hA : (Allow tb).2.tokens = tb.tokens - 1 := by
          simp [Allow, hpos]
        rw [hA]
        congr 1
        simp only [decide_eq_decide]
        push_cast
        omega
      · have hA : (Allow tb).2.tokens = tb.tokens := by
          simp [Allow, hpos]
        rw [hA]
        congr 1
        simp only [decide_eq_decide]
        push_cast
        omega

/-- After `m` consecutive `Allow` calls a non-negative token count has
dropped by `m`, stopping at 0. -/
theorem run_allow_tokens (m : Nat) (tb : TokenBucket) (h0 : 0 ≤ tb.tokens) :
    (run tb (List.replicate m Step.allow)).1.tokens = max (tb.tokens - m) 0 := by
  induction m generalizing tb with
  | zero =>
    simp only [List.replicate_zero, run, Nat.cast_zero, sub_zero]
    rw [max_eq_left h0]
  | succ m ih =>
    rw [List.replicate_succ]
    simp only [run]
    by_cases hpos : tb.tokens > 0
    · have hA : (Allow tb).2.tokens = tb.tokens - 1 := by
        simp [Allow, hpos]
      rw [ih (Allow tb).2 (by rw [hA]; omega), hA]
      push_cast
      simp only [max_def]
      split_ifs <;> omega
    · have hA : (Allow tb).2.tokens = tb.tokens := by
        simp [Allow, hpos]
      rw [ih (Allow tb).2 (by rw [hA]; exact h0), hA]
      push_cast
      simp only [max_def]
      split_ifs <;> omega

/-- C3: on the bucket built by `NewTokenBucket C r i` with `C > 0` and no
refill tick, among `m` consecutive `Allow` calls the `n`-th one
(`1 <= n <= m`) returns true if and only if `n <= C`, and after the `m`
calls `tokens = max (C - m) 0`, which is never below 0. -/
theorem sequential_admission (C r i : Int) (hC : 0 < C) (m n : Nat)
    (hn : 1 ≤ n) (hnm : n ≤ m) :
    (run (NewTokenBucket C r i) (List.replicate m Step.allow)).2[n - 1]?
      = some (decide ((n : Int) ≤ C)) ∧
    (run (NewTokenBucket C r i) (List.replicate m Step.allow)).1.tokens
      = max (C - m) 0 ∧
    0 ≤ (run (NewTokenBucket C r i) (List.replicate m Step.allow)).1.tokens := by
  have hres := run_allow_results m (NewTokenBucket C r i) (n - 1) (by omega)
  have htok := run_allow_tokens m (NewTokenBucket C r i) (le_of_lt hC)
  have e1 : (NewTokenBucket C r i).tokens = C := rfl
  rw [e1] at hres htok
  have hcast : ((n - 1 : Nat) : Int) + 1 = (n : Int) := by omega
  rw [hcast] at hres
  refine ⟨hres, htok, ?_⟩
  rw [htok]
  exact le_max_right _ _

theorem sequential_admission_witness :
    (run (NewTokenBucket 2 1 1000000000) (List.replicate 4 Step.allow)).2[3 - 1]?
      = some (decide (((3 : Nat) : Int) ≤ 2)) ∧
    (run (NewTokenBucket 2 1 1000000000) (List.replicate 4 Step.allow)).1.tokens
      = max (2 - ((4 : Nat) : Int)) 0 ∧
    0 ≤ (run (NewTokenBucket 2 1 1000000000)
      (List.replicate 4 Step.allow)).1.tokens :=
  sequential_admission 2 1 1000000000 (by decide) 4 3 (by decide) (by decide)

/-- C7: on `NewTokenBucket 5 1 (1 second)`, six consecutive `Allow` calls
return true five times and then false; after one refill tick the next call
returns true and the one after it false. The same holds under 64-bit
arithmetic. -/
theorem main_scenario :
    (run (NewTokenBucket 5 1 1000000000)
      [Step.allow, Step.allow, Step.allow, Step.allow, Step.allow, Step.allow,
       Step.tick, Step.allow, Step.allow]).2
      = [true, true, true, true, true, false, true, false] ∧
    (run64 (NewTokenBucket 5 1 1000000000)
      [Step.allow, Step.allow, Step.allow, Step.allow, Step.allow, Step.allow,
       Step.tick, Step.allow, Step.allow]).2
      = [true, true, true, true, true, false, true, false] := by
  constructor <;> decide

/-! ## Non-positive capacity -/

theorem run64_of_capacity_nonpos (steps : List Step) (tb : TokenBucket)
    (hc : tb.capacity ≤ 0) (ht : tb.tokens = tb.capacity) :
    run64 tb steps = (tb, List.replicate (steps.count Step.allow) false) := by
  induction steps with
  | nil => rfl
  | cons st rest ih =>
    cases st with
    | allow =>
      have hA : Allow64 tb = (false, tb) := by
        unfold Allow64
        rw [if_neg (by omega)]
      simp only [run64, hA, ih, List.count_cons_self, List.replicate_succ]
    | tick =>
      have hT : refillTick64 tb = tb := by
        unfold refillTick64
        rw [if_neg (by omega)]
      have hcnt : List.count Step.allow (Step.tick :: rest)
          = List.count Step.allow rest := by
        simp [List.count_cons]
      simp only [run64, hT, ih, hcnt]

/-- C8, as amended: `NewTokenBucket` validates nothing. With `capacity <= 0`,
any `refillRate` and `refillInterval > 0`, it returns a bucket with
`tokens = capacity`, the refiller starts without failure, and in every
finite sequence of `Allow` calls and refill ticks every `Allow` returns
false and the bucket, so also `tokens`, stays as built. -/
theorem nonpositive_capacity_rejects_of_interval_pos
    (capacity refillRate refillInterval : Int)
    (hc : capacity ≤ 0) (hi : 0 < refillInterval) (steps : List Step) :
    (NewTokenBucket capacity refillRate refillInterval).tokens = capacity ∧
    startAndRun capacity refillRate refillInterval steps
      = some (NewTokenBucket capacity refillRate refillInterval,
          List.replicate (steps.count Step.allow) false) ∧
    (∃ out, startAndRun capacity refillRate refillInterval steps = some out ∧
      out.1.tokens = capacity ∧ ∀ b ∈ out.2, b = false) := by
  have h64 := run64_of_capacity_nonpos steps
    (NewTokenBucket capacity refillRate refillInterval) hc rfl
  have hrun : startAndRun capacity refillRate refillInterval steps
      = some (NewTokenBucket capacity refillRate refillInterval,
          List.replicate (steps.count Step.allow) false) := by
    have hti : (NewTokenBucket capacity refillRate refillInterval).refillInterval
        = refillInterval := rfl
    have hnt : NewTicker refillInterval = some refillInterval := by
      unfold NewTicker
      rw [if_neg (by omega)]
    simp only [startAndRun, hti, hnt, h64]
  refine ⟨rfl, hrun, ⟨_, hrun, rfl, ?_⟩⟩
  intro b hb
  exact (List.mem_replicate.mp hb).2

theorem nonpositive_capacity_rejects_of_interval_pos_witness :
    (NewTokenBucket 0 1 1000000000).tokens = 0 ∧
    startAndRun 0 1 1000000000 [Step.allow, Step.tick, Step.allow]
      = some (NewTokenBucket 0 1 1000000000,
          List.replicate ([Step.allow, Step.tick, Step.allow].count Step.allow)
            false) ∧
    (∃ out, startAndRun 0 1 1000000000 [Step.allow, Step.tick, Step.allow]
        = some out ∧ out.1.tokens = 0 ∧ ∀ b ∈ out.2, b = false) :=
  nonpositive_capacity_rejects_of_interval_pos 0 1 1000000000 (by decide)
    (by decide) [Step.allow, Step.tick, Step.allow]

/-- C8, as stated, fails: with `refillInterval = 0` the goroutine started by
`NewTokenBucket 0 1 0` panics in `time.NewTicker`, so construction does have
a failure path, no refill tick ever happens and the process ends; hence the
statement does not hold for every `refillInterval`. -/
theorem nonpositive_interval_fails :
    startAndRun 0 1 0 [Step.allow, Step.tick, Step.allow] = none ∧
    refill 1 (NewTokenBucket 0 1 0) = none ∧
    ¬ (∀ capacity refillRate refillInterval : Int, capacity ≤ 0 →
        ∀ steps : List Step,
          ∃ out, startAndRun capacity refillRate refillInterval steps = some out ∧
            out.1.tokens = capacity ∧ ∀ b ∈ out.2, b = false) := by
  refine ⟨by decide, by decide, ?_⟩
  intro h
  obtain ⟨out, hout, _⟩ := h 0 1 0 (le_refl 0) []
  have hnone : startAndRun 0 1 0 [] = none := by decide
  rw [hnone] at hout
  exact Option.noConfusion hout

/-! ## 64-bit arithmetic -/

/-- Under 64-bit arithmetic a tick never leaves more than `capacity` tokens
and never adds more than `refillRate`. -/
theorem refillTick64_upper (tb : TokenBucket) (hr : 0 < tb.refillRate)
    (h0 : 0 ≤ tb.tokens) (h1 : tb.tokens ≤ tb.capacity)
    (hcap : InInt64 tb.capacity) (hrate : InInt64 tb.refillRate) :
    (refillTick64 tb).tokens ≤ tb.capacity ∧
    (refillTick64 tb).tokens - tb.tokens ≤ tb.refillRate := by
  unfold InInt64 minInt64 maxInt64 at hcap hrate
  unfold refillTick64
  split
  · dsimp only
    split
    · dsimp only
      rename_i hlt hgt
      unfold wrap64 at hgt
      omega
    · dsimp only
      rename_i hlt hle
      unfold wrap64 at hle ⊢
      omega
  · omega

/-- Where `capacity + refillRate` fits in an `int`, a tick under 64-bit
arithmetic is the tick over unbounded integers. -/
theorem refillTick64_eq_of_fits (tb : TokenBucket) (hr : 0 ≤ tb.refillRate)
    (h0 : 0 ≤ tb.tokens) (h1 : tb.tokens ≤ tb.capacity)
    (hfit : tb.capacity + tb.refillRate ≤ maxInt64) :
    refillTick64 tb = refillTick tb := by
  apply refillTick64_eq_refillTick
  unfold InInt64 minInt64
  unfold maxInt64 at hfit ⊢
  omega

/-- Where `capacity + refillRate` fits in an `int`, every run under 64-bit
arithmetic is the run over unbounded integers. -/
theorem run64_eq_run (steps : List Step) (tb : TokenBucket)
    (hr : 0 ≤ tb.refillRate) (h0 : 0 ≤ tb.tokens) (h1 : tb.tokens ≤ tb.capacity)
    (hfit : tb.capacity + tb.refillRate ≤ maxInt64) :
    run64 tb steps = run tb steps := by
  induction steps generalizing tb with
  | nil => rfl
  | cons st rest ih =>
    cases st with
    | allow =>
      have hA : Allow64 tb = Allow tb := by
        apply Allow64_eq_Allow
        unfold InInt64 minInt64
        unfold maxInt64 at hfit ⊢
        omega
      have hb := Allow_tokens_bounds tb h0 h1
      have hi := ih (Allow tb).2 (by rw [Allow_refillRate]; exact hr) hb.1
        (by rw [Allow_capacity]; exact hb.2)
        (by rw [Allow_capacity, Allow_refillRate]; exact hfit)
      simp only [run64, run, hA, hi]
    | tick =>
      have hT := refillTick64_eq_of_fits tb hr h0 h1 hfit
      have hb := refillTick_tokens_bounds tb hr h0 h1
      have hi := ih (refillTick tb) (by rw [refillTick_refillRate]; exact hr) hb.1
        (by rw [refillTick_capacity]; exact hb.2)
        (by rw [refillTick_capacity, refillTick_refillRate]; exact hfit)
      simp only [run64, run, hT, hi]

/-- C10: under 64-bit arithmetic the bound fails. `NewTokenBucket 2 maxInt64
(1 second)` has `capacity > 0` and `refillRate > 0`; one `Allow` leaves
`tokens = 1`, inside `[0, 2]`; the next refill tick computes
`1 + maxInt64`, which wraps to `minInt64`, is not above `capacity`, and stays
in `tokens`: a negative count, below the range `[0, capacity]`. -/
theorem refillTick64_overflow :
    (run64 (NewTokenBucket 2 maxInt64 1000000000) [Step.allow]).1
      = ⟨2, 1, maxInt64, 1000000000⟩ ∧
    (refillTick64 ⟨2, 1, maxInt64, 1000000000⟩).tokens = -9223372036854775808 ∧
    (run64 (NewTokenBucket 2 maxInt64 1000000000) [Step.allow, Step.tick]).1.tokens
      = -9223372036854775808 ∧
    (run64 (NewTokenBucket 2 maxInt64 1000000000)
      [Step.allow, Step.tick, Step.allow]).2 = [true, false] := by
  refine ⟨?_, ?_, ?_, ?_⟩ <;> decide

/-! ## The refill tick and the refill loop of the program -/

theorem refillTick64_fields (tb : TokenBucket) :
    (refillTick64 tb).capacity = tb.capacity ∧
    (refillTick64 tb).refillRate = tb.refillRate ∧
    (refillTick64 tb).refillInterval = tb.refillInterval := by
  unfold refillTick64
  split
  · dsimp only
    split <;> exact ⟨rfl, rfl, rfl⟩
  · exact ⟨rfl, rfl, rfl⟩

/-- Where `tokens + refillRate` fits in an `int`, the tick of the program
leaves `min (tokens + refillRate) capacity` below capacity and nothing new
at or above it. -/
theorem refillTick64_tokens_of_fits (tb : TokenBucket)
    (hfit : InInt64 (tb.tokens + tb.refillRate)) :
    (tb.tokens < tb.capacity →
      (refillTick64 tb).tokens = min (tb.tokens + tb.refillRate) tb.capacity) ∧
    (¬ tb.tokens < tb.capacity → (refillTick64 tb).tokens = tb.tokens) := by
  rw [refillTick64_eq_refillTick tb hfit]
  refine ⟨refillTick_tokens_of_lt tb, ?_⟩
  intro h
  rw [refillTick_of_not_lt tb h]

/-- C4: the tick contract fails where the addition wraps. In the state
`capacity = 2`, `tokens = 1`, `refillRate = maxInt64` (all `int` values,
`tokens < capacity`) the tick leaves `tokens = minInt64`, while
`min (tokens + refillRate) capacity` is 2. -/
theorem refillTick64_contract_overflow :
    InInt64 2 ∧ InInt64 1 ∧ InInt64 maxInt64 ∧ (1 : Int) < 2 ∧
    (run64 (NewTokenBucket 2 maxInt64 1000000000) [Step.allow]).1
      = ⟨2, 1, maxInt64, 1000000000⟩ ∧
    refillTick64 ⟨2, 1, maxInt64, 1000000000⟩
      = ⟨2, minInt64, maxInt64, 1000000000⟩ ∧
    min ((1 : Int) + maxInt64) 2 = 2 ∧
    (refillTick64 ⟨2, 1, maxInt64, 1000000000⟩).tokens
      ≠ min ((1 : Int) + maxInt64) 2 := by
  refine ⟨?_, ?_, ?_, ?_, ?_, ?_, ?_, ?_⟩ <;> decide

theorem refillLoop_capacity (k : Nat) (tb : TokenBucket) :
    (refillLoop k tb).capacity = tb.capacity := by
  induction k generalizing tb with
  | zero => rfl
  | succ k ih => rw [refillLoop, ih, (refillTick64_fields tb).1]

/-- Where `capacity + refillRate` fits in an `int`, `k` ticks of the
program from a level in `[0, capacity]` add `k * refillRate` tokens, capped
at `capacity`. -/
theorem refillLoop_tokens_of_fits (k : Nat) (tb : TokenBucket)
    (hr : 0 < tb.refillRate) (h0 : 0 ≤ tb.tokens) (hle : tb.tokens ≤ tb.capacity)
    (hfit : tb.capacity + tb.refillRate ≤ maxInt64) :
    (refillLoop k tb).tokens = min (tb.tokens + k * tb.refillRate) tb.capacity := by
  induction k generalizing tb with
  | zero =>
    simp only [refillLoop, Nat.cast_zero, zero_mul, add_zero]
    rw [min_eq_left hle]
  | succ k ih =>
    have hk : (0 : Int) ≤ k * tb.refillRate :=
      mul_nonneg (Int.ofNat_nonneg k) (le_of_lt hr)
    have hsucc : ((k + 1 : Nat) : Int) * tb.refillRate
        = k * tb.refillRate + tb.refillRate := by
      push_cast; ring
    have hT := refillTick64_eq_of_fits tb (le_of_lt hr) h0 hle hfit
    have hb := refillTick_tokens_bounds tb (le_of_lt hr) h0 hle
    rw [refillLoop, hT, ih (refillTick tb)
      (by rw [refillTick_refillRate]; exact hr) hb.1
      (by rw [refillTick_capacity]; exact hb.2)
      (by rw [refillTick_capacity, refillTick_refillRate]; exact hfit)]
    rw [refillTick_refillRate, refillTick_capacity, hsucc]
    by_cases hlt : tb.tokens < tb.capacity
    · rw [refillTick_tokens_of_lt tb hlt]
      simp only [min_def]
      split_ifs <;> omega
    · rw [refillTick_of_not_lt tb hlt]
      simp only [min_def]
      split_ifs <;> omega

/-- Where `capacity + refillRate` fits in an `int` and the interval is
positive, `k` ticks of `refill` from `tokens = 0` leave
`min (k * refillRate) capacity`. -/
theorem refill_closed_form_of_fits (tb : TokenBucket) (k : Nat)
    (hi : 0 < tb.refillInterval) (hc : 0 < tb.capacity) (hr : 0 < tb.refillRate)
    (h0 : tb.tokens = 0) (hfit : tb.capacity + tb.refillRate ≤ maxInt64) :
    ∃ out, refill k tb = some out ∧
      out.tokens = min (k * tb.refillRate) tb.capacity ∧
      out.tokens ≤ tb.capacity := by
  have hnt : NewTicker tb.refillInterval = some tb.refillInterval := by
    unfold NewTicker
    rw [if_neg (by omega)]
  have hk := refillLoop_tokens_of_fits k tb hr (by omega) (by omega) hfit
  rw [h0, zero_add] at hk
  refine ⟨refillLoop k tb, ?_, hk, ?_⟩
  · simp only [refill, hnt]
  · rw [hk]; exact min_le_right _ _

/-- C5: the closed form fails where the addition wraps. From
`capacity = maxInt64`, `tokens = 0`, `refillRate = maxInt64 - 1` (all
positive `int` values, positive interval) one tick leaves
`maxInt64 - 1 = min refillRate capacity`, but the second tick computes
`2 * (maxInt64 - 1)`, which wraps to `-4` and stays, while
`min (2 * refillRate) capacity` is `maxInt64`. -/
theorem refill_closed_form_overflow :
    InInt64 maxInt64 ∧ InInt64 (maxInt64 - 1) ∧ 0 < maxInt64 ∧ 0 < maxInt64 - 1 ∧
    refill 1 ⟨maxInt64, 0, maxInt64 - 1, 1000000000⟩
      = some ⟨maxInt64, maxInt64 - 1, maxInt64 - 1, 1000000000⟩ ∧
    refill 2 ⟨maxInt64, 0, maxInt64 - 1, 1000000000⟩
      = some ⟨maxInt64, -4, maxInt64 - 1, 1000000000⟩ ∧
    min (((2 : Nat) : Int) * (maxInt64 - 1)) maxInt64 = maxInt64 ∧
    (-4 : Int) ≠ min (((2 : Nat) : Int) * (maxInt64 - 1)) maxInt64 := by
  refine ⟨?_, ?_, ?_, ?_, ?_, ?_, ?_, ?_⟩ <;> decide

end TokenBucketModel
